import Mathlib

/-
Verification of the quantum-entropy-api server core (rust-server).

Shallow embedding of:
- bias_correction::von_neumann      (src/device/mod.rs, lines 137-168)
- RingBuffer::{new, write, read}    (src/utils/mod.rs, lines 21-127)
- random_integers                   (src/api/mod.rs, lines 185-241)
- QuantisDevice::health_check       (src/device/mod.rs, lines 121-131)

Bytes are modelled as Nat (u8 values are < 256; no operation below overflows u8).
u64 arithmetic carries an explicit % 2^64 where the source can wrap.
i64 values are modelled as Int together with the two's-complement wrap
function wrap64 at the one place the source casts/adds in i64.
-/

namespace QuantisSpec

/-! ### Von Neumann extractor, translated from bias_correction::von_neumann.

The source walks each input byte, taking bit pairs (bit1, bit2) with
bit1 = (byte >> i) & 1 and bit2 = (byte >> (i+1)) & 1 for i = 0, 2, 4, 6,
emits 0 for (0,1) and 1 for (1,0) into an LSB-first accumulator byte, and
pushes the accumulator every 8 emitted bits.  State is (output, out_byte, out_bits). -/

/-- One iteration of the inner pair loop of von_neumann: the match on
(bit1, bit2) followed by the push of the accumulator when out_bits reaches 8. -/
def vnPairStep : List Nat × Nat × Nat → Nat × Nat → List Nat × Nat × Nat
  | (out, out_byte, out_bits), (bit1, bit2) =>
    let s : Nat × Nat :=
      match bit1, bit2 with
      | 0, 1 => (out_byte ||| (0 <<< out_bits), out_bits + 1)
      | 1, 0 => (out_byte ||| (1 <<< out_bits), out_bits + 1)
      | _, _ => (out_byte, out_bits)
    if s.2 = 8 then (out ++ [s.1], 0, 0) else (out, s.1, s.2)

/-- The body of the outer byte loop: for i in (0..8).step_by(2), process the
pair ((byte >> i) & 1, (byte >> (i+1)) & 1). -/
def vnByteStep (st : List Nat × Nat × Nat) (byte : Nat) : List Nat × Nat × Nat :=
  [0, 2, 4, 6].foldl
    (fun st i => vnPairStep st ((byte >>> i) &&& 1, (byte >>> (i + 1)) &&& 1)) st

/-- bias_correction::von_neumann: fold the byte loop over the input starting
from empty output and an empty accumulator; leftover bits (out_bits < 8 at the
end) are never pushed. -/
def vonNeumann (input : List Nat) : List Nat :=
  (input.foldl vnByteStep ([], 0, 0)).1

/-! ### Specification-side description of the extractor (from the spec's words):
input bytes are a stream of bit pairs taken low-pair-first, (0,1) emits 0,
(1,0) emits 1, other pairs emit nothing, and emitted bits are packed LSB-first
into output bytes, dropping any incomplete final byte. -/

/-- Bit i of a byte, low bit first. -/
def bitAt (b i : Nat) : Nat := b / 2 ^ i % 2

/-- The four low-first bit pairs of one byte. -/
def pairsOfByte (b : Nat) : List (Nat × Nat) :=
  [(bitAt b 0, bitAt b 1), (bitAt b 2, bitAt b 3),
   (bitAt b 4, bitAt b 5), (bitAt b 6, bitAt b 7)]

/-- Von Neumann pair rule: (0,1) emits 0, (1,0) emits 1, the rest is discarded. -/
def vnEmit : Nat × Nat → Option Nat
  | (0, 1) => some 0
  | (1, 0) => some 1
  | _ => none

/-- The stream of emitted bits for a whole input. -/
def vnBits (input : List Nat) : List Nat :=
  ((input.map pairsOfByte).flatten).filterMap vnEmit

/-- Value of a list of bits read LSB-first. -/
def byteVal (bits : List Nat) : Nat :=
  bits.foldr (fun b acc => b + 2 * acc) 0

/-- Pack a bit stream LSB-first into bytes of 8 bits, dropping the incomplete
final group. -/
def packBits (bits : List Nat) : List Nat :=
  (List.range (bits.length / 8)).map (fun k => byteVal ((bits.drop (8 * k)).take 8))

/-- The bits left unpacked at the end of the stream. -/
def tail8 (bits : List Nat) : List Nat := bits.drop (bits.length / 8 * 8)

/-! ### Ring buffer, translated from utils::RingBuffer.

The buffer is a byte array of length capacity; read_pos, write_pos and
available are plain numbers here (the atomics of the source, executed
sequentially).  copyTo buf pos xs overwrites buf[pos .. pos+xs.length) in
place, exactly what the source's copy_nonoverlapping calls do (each call in
the source stays inside the array bounds). -/

/-- Overwrite buf[pos .. pos + xs.length) with xs. -/
def copyTo (buf : List Nat) (pos : Nat) (xs : List Nat) : List Nat :=
  buf.take pos ++ xs ++ buf.drop (pos + xs.length)

/-- RingBuffer state: byte array, capacity, read cursor, write cursor,
available count. -/
structure RingBuffer where
  buffer : List Nat
  capacity : Nat
  read_pos : Nat
  write_pos : Nat
  available : Nat
deriving DecidableEq, Repr

/-- RingBuffer::new. -/
def RingBuffer.new (capacity : Nat) : RingBuffer :=
  { buffer := List.replicate capacity 0
    capacity := capacity
    read_pos := 0
    write_pos := 0
    available := 0 }

/-- RingBuffer::write: lossy write of min(data.len, capacity - available)
bytes at write_pos, wrapping in at most two segments; returns the new state
and the written count. -/
def RingBuffer.write (rb : RingBuffer) (data : List Nat) : RingBuffer × Nat :=
  let available := rb.available
  let free_space := rb.capacity - available
  if free_space = 0 then (rb, 0)
  else
    let to_write := min data.length free_space
    let write_pos := rb.write_pos
    if write_pos + to_write > rb.capacity then
      let first_part := rb.capacity - write_pos
      let buf :=
        copyTo (copyTo rb.buffer write_pos (data.take first_part)) 0
          ((data.take to_write).drop first_part)
      ({ rb with
          buffer := buf
          write_pos := to_write - first_part
          available := available + to_write }, to_write)
    else
      ({ rb with
          buffer := copyTo rb.buffer write_pos (data.take to_write)
          write_pos := (write_pos + to_write) % rb.capacity
          available := available + to_write }, to_write)

/-- RingBuffer::read: returns (new state, none) when available < size,
otherwise copies size bytes from read_pos (wrapping in at most two segments),
advances the cursor and decrements available. -/
def RingBuffer.read (rb : RingBuffer) (size : Nat) : RingBuffer × Option (List Nat) :=
  if rb.available < size then (rb, none)
  else
    let read_pos := rb.read_pos
    if read_pos + size > rb.capacity then
      let first_part := rb.capacity - read_pos
      let out := (rb.buffer.drop read_pos).take first_part ++
        rb.buffer.take (size - first_part)
      ({ rb with
          read_pos := size - first_part
          available := rb.available - size }, some out)
    else
      let out := (rb.buffer.drop read_pos).take size
      ({ rb with
          read_pos := (read_pos + size) % rb.capacity
          available := rb.available - size }, some out)

/-- Structural invariant of a ring buffer state (capacity fixed at
construction, cursors in range per the data model, fill within capacity). -/
def RingBuffer.WF (rb : RingBuffer) : Prop :=
  rb.buffer.length = rb.capacity ∧ rb.available ≤ rb.capacity ∧
    rb.read_pos < rb.capacity ∧ rb.write_pos < rb.capacity

/-- One operation applied to the ring: a write of the given bytes or a read
request of the given size. -/
inductive RingOp where
  | wr (data : List Nat)
  | rd (size : Nat)
deriving DecidableEq, Repr

/-- Apply one operation to (state, total bytes accepted by writes, total bytes
returned by satisfied reads). -/
def stepOp (s : RingBuffer × Nat × Nat) (op : RingOp) : RingBuffer × Nat × Nat :=
  match op with
  | .wr data =>
    let p := s.1.write data
    (p.1, s.2.1 + p.2, s.2.2)
  | .rd size =>
    match s.1.read size with
    | (rb, some out) => (rb, s.2.1, s.2.2 + out.length)
    | (rb, none) => (rb, s.2.1, s.2.2)

/-- Run a whole sequence of operations on a fresh ring of the given capacity. -/
def runOps (C : Nat) (ops : List RingOp) : RingBuffer × Nat × Nat :=
  ops.foldl stepOp (RingBuffer.new C, 0, 0)

/-! ### random_integers, translated from api::random_integers.

The handler validates min < max and count in [1, 1000], computes
range = (max - min + 1) as u64 (i64 arithmetic that wraps in release builds;
computedRange is that wrapped value), computes bytes_per_int with f64
logarithms (floating point, so the width w is a parameter here), draws raw
bytes (a parameter here: the ring / device draw), walks the bytes in chunks
of w interpreted big-endian, and rejection-samples with
limit = u64::MAX - (u64::MAX % range), emitting min + (v % range) as i64. -/

/-- Two's-complement interpretation of an arbitrary integer as i64. -/
def wrap64 (x : Int) : Int := (x + 2 ^ 63) % 2 ^ 64 - 2 ^ 63

/-- The u64 value of the source expression (max - min + 1) as u64 under
release-mode wrapping i64 arithmetic. -/
def computedRange (mn mx : Int) : Nat := ((mx - mn + 1) % (2 ^ 64 : Int)).toNat

/-- u64::MAX. -/
def u64Max : Nat := 2 ^ 64 - 1

/-- max_valid = u64::MAX - (u64::MAX % range). Only evaluated for range ≠ 0
(the source panics on range = 0; see random_integers below). -/
def maxValid (range : Nat) : Nat := u64Max - u64Max % range

/-- Accept-or-reject one big-endian chunk value v: accept iff v < max_valid,
emitting min + (v % range) computed in wrapping i64 arithmetic
(the source casts (value % range) to i64 and adds; both steps together equal
wrap64 (min + v % range)). -/
def sampleStep (mn : Int) (range : Nat) (v : Nat) : Option Int :=
  if v < maxValid range then some (wrap64 (mn + (v % range : Nat))) else none

/-- Big-endian value of a chunk: value = (value << 8) | byte, in u64. -/
def chunkValue (chunk : List Nat) : Nat :=
  chunk.foldl (fun v b => ((v <<< 8) ||| b) % 2 ^ 64) 0

/-- The consecutive full chunks of w bytes of the raw byte draw: the loop
guard byte_offset + bytes_per_int <= raw_bytes.len() visits the offsets
0, w, 2w, ..., i.e. the first len / w full chunks.  (For w = 0 the source
panics earlier on range = 0; see random_integers.) -/
def chunksOf (w : Nat) (bytes : List Nat) : List (List Nat) :=
  (List.range (bytes.length / w)).map (fun k => (bytes.drop (w * k)).take w)

/-- The sampling loop: while fewer than count integers are collected and a
full chunk remains, sample the next chunk. -/
def sampleChunks (mn : Int) (range count : Nat) :
    List (List Nat) → List Int → List Int
  | [], acc => acc
  | c :: cs, acc =>
    if acc.length < count then
      match sampleStep mn range (chunkValue c) with
      | some x => sampleChunks mn range count cs (acc ++ [x])
      | none => sampleChunks mn range count cs acc
    else acc

/-- random_integers with the byte width w (computed by the source with f64
logarithms) and the raw byte draw as parameters.  When computedRange is 0
(min = i64::MIN, max = i64::MAX), the source's w is 0 and its raw draw is
empty, so its loop body runs once and u64::MAX % range panics with a
remainder-by-zero; that panic is modelled by the error branch below. -/
def random_integers (mn mx : Int) (count w : Nat) (bytes : List Nat) :
    Except String (List Int) :=
  if mn ≥ mx then .error "min must be less than max"
  else if count = 0 ∨ count > 1000 then .error "count must be between 1 and 1000"
  else
    let range := computedRange mn mx
    if range = 0 then .error "panic: remainder by zero"
    else
      let ints := sampleChunks mn range count (chunksOf w bytes) []
      if ints.length < count then .error "Insufficient entropy for requested integers"
      else .ok (ints.take count)

/-! ### health_check, translated from QuantisDevice::health_check.

The device read of 16 bytes is an oracle, passed in as its result.  On
success the source reads data[0] (read(n) always returns exactly n bytes, so
the empty case, which would panic on the index, is modelled as none) and
answers with whether some byte differs from the first; on any read error it
answers Ok(false). -/

/-- Device error kinds of QuantisError (payloads dropped). -/
inductive QuantisError where
  | usb
  | deviceNotFound
  | timeout
  | invalidResponse
deriving DecidableEq, Repr

/-- QuantisDevice::health_check over the outcome of self.read(16). -/
def health_check (r : Except QuantisError (List Nat)) :
    Option (Except QuantisError Bool) :=
  match r with
  | .ok [] => none
  | .ok (first :: rest) => some (.ok (!((first :: rest).all (fun b => b == first))))
  | .error _ => some (.ok false)

/-! ## Helper lemmas: Von Neumann extractor -/

lemma lor_shift_small : ∀ k < 8, ∀ x < 2 ^ k, ∀ b ≤ 1, x ||| (b <<< k) = x + b * 2 ^ k := by
  decide

@[simp] lemma byteVal_nil : byteVal [] = 0 := rfl

@[simp] lemma byteVal_cons (b : Nat) (bs : List Nat) :
    byteVal (b :: bs) = b + 2 * byteVal bs := rfl

lemma byteVal_lt (bits : List Nat) (h : ∀ x ∈ bits, x ≤ 1) :
    byteVal bits < 2 ^ bits.length := by
  induction bits with
  | nil => simp
  | cons b bs ih =>
    have hb : b ≤ 1 := h b (by simp)
    have hbs := ih (fun x hx => h x (by simp [hx]))
    simp only [byteVal_cons, List.length_cons, pow_succ]
    omega

lemma byteVal_append (bits : List Nat) (b : Nat) :
    byteVal (bits ++ [b]) = byteVal bits + b * 2 ^ bits.length := by
  induction bits with
  | nil => simp [byteVal]
  | cons x xs ih =>
    simp only [List.cons_append, byteVal_cons, ih, List.length_cons, pow_succ]
    ring

lemma vnEmit_le_one (p : Nat × Nat) (b : Nat) (h : vnEmit p = some b) : b ≤ 1 := by
  rcases p with ⟨(_ | _ | b1), (_ | _ | b2)⟩ <;> simp [vnEmit] at h <;> omega

lemma vnPairStep_none (out rem : List Nat) (p : Nat × Nat)
    (hlen : rem.length < 8) (hv : vnEmit p = none) :
    vnPairStep (out, byteVal rem, rem.length) p = (out, byteVal rem, rem.length) := by
  rcases p with ⟨b1, b2⟩
  rcases b1 with _ | _ | b1 <;> rcases b2 with _ | _ | b2 <;>
    first
      | (simp only [vnPairStep]; rw [if_neg (by omega)])
      | simp [vnEmit] at hv

lemma vnPairStep_some (out rem : List Nat) (p : Nat × Nat) (bit : Nat)
    (hb : ∀ x ∈ rem, x ≤ 1) (hlen : rem.length < 8) (hv : vnEmit p = some bit) :
    vnPairStep (out, byteVal rem, rem.length) p =
      if rem.length + 1 = 8 then (out ++ [byteVal (rem ++ [bit])], 0, 0)
      else (out, byteVal (rem ++ [bit]), rem.length + 1) := by
  have hcur : byteVal rem < 2 ^ rem.length := byteVal_lt rem hb
  rcases p with ⟨b1, b2⟩
  rcases b1 with _ | _ | b1 <;> rcases b2 with _ | _ | b2 <;> simp [vnEmit] at hv
  · subst hv
    simp only [vnPairStep]
    rw [lor_shift_small rem.length hlen (byteVal rem) hcur 0 (by norm_num),
      ← byteVal_append rem 0]
  · subst hv
    simp only [vnPairStep]
    rw [lor_shift_small rem.length hlen (byteVal rem) hcur 1 le_rfl,
      ← byteVal_append rem 1]

lemma packBits_small (bits : List Nat) (h : bits.length < 8) : packBits bits = [] := by
  simp [packBits, Nat.div_eq_of_lt h]

@[simp] lemma length_packBits (bits : List Nat) :
    (packBits bits).length = bits.length / 8 := by
  simp [packBits]

lemma tail8_small (bits : List Nat) (h : bits.length < 8) : tail8 bits = bits := by
  simp [tail8, Nat.div_eq_of_lt h]

lemma packBits_block (block rest : List Nat) (h : block.length = 8) :
    packBits (block ++ rest) = byteVal block :: packBits rest := by
  have hlen : (block ++ rest).length = 8 + rest.length := by simp [h]
  have hdiv : (block ++ rest).length / 8 = rest.length / 8 + 1 := by
    rw [hlen, Nat.add_comm 8 rest.length, Nat.add_div_right _ (by norm_num)]
  unfold packBits
  rw [hdiv, List.range_succ_eq_map, List.map_cons, List.map_map]
  congr 1
  · rw [Nat.mul_zero, List.drop_zero, ← h, List.take_left]
  · apply List.map_congr_left
    intro k _
    simp only [Function.comp_apply]
    congr 2
    have : 8 * (k + 1) = 8 + 8 * k := by ring
    rw [this, ← List.drop_drop, show (8 : Nat) = block.length from h.symm, List.drop_left,
      h]

lemma tail8_block (block rest : List Nat) (h : block.length = 8) :
    tail8 (block ++ rest) = tail8 rest := by
  unfold tail8
  have hlen : (block ++ rest).length = 8 + rest.length := by simp [h]
  have hdiv : (block ++ rest).length / 8 = rest.length / 8 + 1 := by
    rw [hlen, Nat.add_comm 8 rest.length, Nat.add_div_right _ (by norm_num)]
  rw [hdiv]
  have : (rest.length / 8 + 1) * 8 = 8 + rest.length / 8 * 8 := by ring
  rw [this, ← List.drop_drop, show (8 : Nat) = block.length from h.symm, List.drop_left]

lemma vn_fold (ps : List (Nat × Nat)) : ∀ (out rem : List Nat),
    (∀ x ∈ rem, x ≤ 1) → rem.length < 8 →
    ps.foldl vnPairStep (out, byteVal rem, rem.length) =
      (out ++ packBits (rem ++ ps.filterMap vnEmit),
       byteVal (tail8 (rem ++ ps.filterMap vnEmit)),
       (rem ++ ps.filterMap vnEmit).length % 8) := by
  induction ps with
  | nil =>
    intro out rem _ hlen
    simp [packBits_small rem hlen, tail8_small rem hlen, Nat.mod_eq_of_lt hlen]
  | cons p ps ih =>
    intro out rem hrem hlen
    rw [List.foldl_cons]
    cases hv : vnEmit p with
    | none =>
      rw [vnPairStep_none out rem p hlen hv, ih out rem hrem hlen]
      simp [List.filterMap_cons, hv]
    | some bit =>
      rw [vnPairStep_some out rem p bit hrem hlen hv]
      have hbit : bit ≤ 1 := vnEmit_le_one p bit hv
      have hrem' : ∀ x ∈ rem ++ [bit], x ≤ 1 := by
        intro x hx
        rcases List.mem_append.mp hx with h | h
        · exact hrem x h
        · simp at h; omega
      have hassoc : rem ++ (bit :: ps.filterMap vnEmit) =
          (rem ++ [bit]) ++ ps.filterMap vnEmit := by simp
      by_cases h8 : rem.length + 1 = 8
      · rw [if_pos h8]
        have hlen8 : (rem ++ [bit]).length = 8 := by simp [h8]
        have hih := ih (out ++ [byteVal (rem ++ [bit])]) [] (by simp) (by simp)
        simp only [byteVal_nil, List.length_nil, List.nil_append] at hih
        rw [hih]
        simp only [List.filterMap_cons, hv]
        rw [hassoc, packBits_block _ _ hlen8, tail8_block _ _ hlen8,
          List.length_append, hlen8, Nat.add_mod_left]
        simp
      · rw [if_neg h8]
        have hlen' : (rem ++ [bit]).length < 8 := by simp; omega
        have hlen1 : (rem ++ [bit]).length = rem.length + 1 := by simp
        have hih := ih out (rem ++ [bit]) hrem' hlen'
        rw [← hlen1, hih]
        simp only [List.filterMap_cons, hv]
        rw [hassoc]

lemma bitAt_eq_shift (b i : Nat) : (b >>> i) &&& 1 = bitAt b i := by
  rw [Nat.shiftRight_eq_div_pow, Nat.and_one_is_mod]
  rfl

lemma vnByteStep_eq (st : List Nat × Nat × Nat) (b : Nat) :
    vnByteStep st b = (pairsOfByte b).foldl vnPairStep st := by
  unfold vnByteStep pairsOfByte
  simp only [List.foldl_cons, List.foldl_nil, bitAt_eq_shift]

lemma vonNeumann_eq_spec (input : List Nat) :
    vonNeumann input = packBits (vnBits input) := by
  have hmain := vn_fold ((input.map pairsOfByte).flatten) [] [] (by simp) (by simp)
  simp only [byteVal_nil, List.length_nil, List.nil_append] at hmain
  have hfn : vnByteStep = fun st b => (pairsOfByte b).foldl vnPairStep st :=
    funext fun st => funext fun b => vnByteStep_eq st b
  calc vonNeumann input
      = (input.foldl (fun st b => (pairsOfByte b).foldl vnPairStep st) ([], 0, 0)).1 := by
        unfold vonNeumann; rw [hfn]
    _ = (((input.map pairsOfByte).flatten).foldl vnPairStep ([], 0, 0)).1 := by
        rw [List.foldl_flatten, List.foldl_map]
    _ = packBits (vnBits input) := by rw [hmain]; rfl

lemma vn_aa_two (out : List Nat) :
    vnByteStep (vnByteStep (out, 0, 0) 170) 170 = (out ++ [0], 0, 0) := rfl

lemma vn_aa_fold : ∀ (k : Nat) (out : List Nat),
    (List.replicate (2 * k) 170).foldl vnByteStep (out, 0, 0) =
      (out ++ List.replicate k 0, 0, 0) := by
  intro k
  induction k with
  | zero => intro out; simp
  | succ k ih =>
    intro out
    have h2 : 2 * (k + 1) = (2 * k) + 1 + 1 := by ring
    rw [h2, List.replicate_succ, List.replicate_succ, List.foldl_cons, List.foldl_cons,
      vn_aa_two, ih (out ++ [0])]
    simp [List.replicate_succ]

lemma vonNeumann_eq_fold (input : List Nat) :
    vonNeumann input = (input.foldl vnByteStep ([], 0, 0)).1 := rfl

lemma vn_aa : vonNeumann (List.replicate 10000 170) = List.replicate 5000 0 := by
  rw [vonNeumann_eq_fold]
  have h1 : (10000 : Nat) = 2 * 5000 := by norm_num
  rw [h1, vn_aa_fold 5000 [], List.nil_append]

/-! ## Claim C1 -/

/-- C1, counterexample: the claim as stated is false on the code.  Feeding
10000 bytes of 0xAA through von_neumann does yield 5000 bytes, but they are
all 0x00, not 0xFF: each low-first pair of 0xAA is (0,1), which emits bit 0. -/
theorem c1_counterexample :
    ¬ ((vonNeumann (List.replicate 10000 170)).length = 5000 ∧
       ∀ b ∈ vonNeumann (List.replicate 10000 170), b = 255) := by
  rw [vn_aa]
  rintro ⟨-, hall⟩
  have h0 : (0 : Nat) ∈ List.replicate 5000 0 :=
    List.mem_replicate.mpr ⟨by norm_num, rfl⟩
  have := hall 0 h0
  omega

/-- C1, amended: input bytes are a stream of low-first bit pairs, (0,1) emits
0, (1,0) emits 1, other pairs emit nothing, and emitted bits are packed
LSB-first into output bytes (incomplete final byte dropped) — von_neumann
equals that specification; and 10000 bytes of 0xAA yield exactly 5000 output
bytes, every one of value 0x00 (every pair is (0,1), emitting 0). -/
theorem c1_amended :
    (∀ input, vonNeumann input = packBits (vnBits input)) ∧
    vonNeumann (List.replicate 10000 170) = List.replicate 5000 0 :=
  ⟨vonNeumann_eq_spec, vn_aa⟩

/-! ## Claim C10 -/

lemma vnBits_length_le (input : List Nat) :
    (vnBits input).length ≤ 4 * input.length := by
  induction input with
  | nil => simp [vnBits]
  | cons b rest ih =>
    unfold vnBits at *
    simp only [List.map_cons, List.flatten_cons, List.filterMap_append,
      List.length_append, List.length_cons]
    have h4 : ((pairsOfByte b).filterMap vnEmit).length ≤ 4 := by
      calc ((pairsOfByte b).filterMap vnEmit).length ≤ (pairsOfByte b).length :=
            List.length_filterMap_le _ _
        _ = 4 := rfl
    omega

/-- C10: von_neumann only outputs whole bytes — it equals packing the emitted
bit stream into 8-bit groups with the incomplete final group discarded, its
output length is at most half the input length in bytes, and any single input
byte (which emits at most 4 bits) produces empty output; it is a pure
function of its input. -/
theorem c10_whole_bytes : ∀ (input : List Nat) (b : Nat),
    (vonNeumann input).length ≤ input.length / 2 ∧
    vonNeumann [b] = [] ∧
    vonNeumann input = packBits (vnBits input) := by
  intro input b
  refine ⟨?_, ?_, vonNeumann_eq_spec input⟩
  · rw [vonNeumann_eq_spec, length_packBits]
    have h2 := vnBits_length_le input
    have : (vnBits input).length / 8 ≤ 4 * input.length / 8 :=
      Nat.div_le_div_right h2
    calc (vnBits input).length / 8 ≤ 4 * input.length / 8 := this
      _ = input.length / 2 := by
          rw [show (8 : Nat) = 4 * 2 from rfl, Nat.mul_div_mul_left _ _ (by norm_num)]
  · rw [vonNeumann_eq_spec]
    apply packBits_small
    have := vnBits_length_le [b]
    simp at this
    omega

/-! ## Helper lemmas: ring buffer -/

lemma copyTo_length (buf : List Nat) (pos : Nat) (xs : List Nat)
    (h : pos + xs.length ≤ buf.length) :
    (copyTo buf pos xs).length = buf.length := by
  simp [copyTo]
  omega

lemma write_spec (rb : RingBuffer) (data : List Nat) (hwf : rb.WF) :
    (rb.write data).1.WF ∧
    (rb.write data).2 = min data.length (rb.capacity - rb.available) ∧
    (rb.write data).1.available =
      rb.available + min data.length (rb.capacity - rb.available) ∧
    (rb.write data).1.capacity = rb.capacity := by
  obtain ⟨hbuf, hav, hrp, hwp⟩ := hwf
  simp only [RingBuffer.write]
  split_ifs with h1 h2
  · constructor
    · exact ⟨hbuf, hav, hrp, hwp⟩
    · simp [h1]
  · -- wrap-around write
    set tw := min data.length (rb.capacity - rb.available) with htw
    have htw_le : tw ≤ rb.capacity - rb.available := min_le_right _ _
    have htw_data : tw ≤ data.length := min_le_left _ _
    have hfp : rb.capacity - rb.write_pos < tw := by omega
    have hl1 : (data.take (rb.capacity - rb.write_pos)).length =
        rb.capacity - rb.write_pos := by
      rw [List.length_take]; omega
    have hc1 : (copyTo rb.buffer rb.write_pos
        (data.take (rb.capacity - rb.write_pos))).length = rb.buffer.length := by
      apply copyTo_length
      rw [hl1]; omega
    have hl2 : ((data.take tw).drop (rb.capacity - rb.write_pos)).length =
        tw - (rb.capacity - rb.write_pos) := by
      rw [List.length_drop, List.length_take]; omega
    have hc2 : (copyTo (copyTo rb.buffer rb.write_pos
        (data.take (rb.capacity - rb.write_pos))) 0
        ((data.take tw).drop (rb.capacity - rb.write_pos))).length =
        (copyTo rb.buffer rb.write_pos
          (data.take (rb.capacity - rb.write_pos))).length := by
      apply copyTo_length
      rw [hl2, hc1]; omega
    refine ⟨⟨(hc2.trans hc1).trans hbuf, by simp; omega, by simp; omega, by simp; omega⟩,
      rfl, by simp, rfl⟩
  · -- straight write
    set tw := min data.length (rb.capacity - rb.available) with htw
    have htw_le : tw ≤ rb.capacity - rb.available := min_le_right _ _
    have hc : (copyTo rb.buffer rb.write_pos (data.take tw)).length =
        rb.buffer.length := by
      apply copyTo_length
      rw [List.length_take]
      omega
    refine ⟨⟨hc.trans hbuf, by simp; omega, by simp; omega, ?_⟩, rfl, by simp, rfl⟩
    simp
    exact Nat.mod_lt _ (by omega)

lemma read_spec (rb : RingBuffer) (size : Nat) (hwf : rb.WF) :
    ((rb.read size).2 = none ↔ rb.available < size) ∧
    ((rb.read size).2 = none → (rb.read size).1 = rb) ∧
    (size ≤ rb.available →
      (rb.read size).1.WF ∧
      (rb.read size).1.capacity = rb.capacity ∧
      (rb.read size).1.available = rb.available - size ∧
      ∃ out, (rb.read size).2 = some out ∧ out.length = size) := by
  obtain ⟨hbuf, hav, hrp, hwp⟩ := hwf
  simp only [RingBuffer.read]
  split_ifs with h1 h2
  · simp [h1]
  · -- wrap-around read
    refine ⟨by simp [h1], by simp, fun hsz => ?_⟩
    have hout : ((rb.buffer.drop rb.read_pos).take (rb.capacity - rb.read_pos) ++
        rb.buffer.take (size - (rb.capacity - rb.read_pos))).length = size := by
      rw [List.length_append, List.length_take, List.length_take, List.length_drop, hbuf]
      omega
    exact ⟨⟨hbuf, by simp; omega, by simp; omega, by simp; omega⟩,
      rfl, by simp, ⟨_, rfl, hout⟩⟩
  · -- straight read
    refine ⟨by simp [h1], by simp, fun hsz => ?_⟩
    have hout : ((rb.buffer.drop rb.read_pos).take size).length = size := by
      rw [List.length_take, List.length_drop, hbuf]
      omega
    refine ⟨⟨hbuf, by simp; omega, ?_, by simp; omega⟩, rfl, by simp, ⟨_, rfl, hout⟩⟩
    simp
    exact Nat.mod_lt _ (by omega)

/-- Inductive invariant along a run: a well-formed state with the original
capacity whose available count balances the accepted/satisfied totals. -/
def RunInv (C : Nat) (s : RingBuffer × Nat × Nat) : Prop :=
  s.1.WF ∧ s.1.capacity = C ∧ s.1.available + s.2.2 = s.2.1 ∧ s.2.2 ≤ s.2.1

lemma stepOp_inv (C : Nat) (s : RingBuffer × Nat × Nat) (op : RingOp)
    (h : RunInv C s) : RunInv C (stepOp s op) := by
  obtain ⟨hwf, hcap, hbal, hle⟩ := h
  cases op with
  | wr data =>
    obtain ⟨hwf', hret, hav', hcap'⟩ := write_spec s.1 data hwf
    refine ⟨hwf', hcap'.trans hcap, ?_, ?_⟩
    · show (s.1.write data).1.available + s.2.2 = s.2.1 + (s.1.write data).2
      omega
    · show s.2.2 ≤ s.2.1 + (s.1.write data).2
      omega
  | rd size =>
    rcases hread : s.1.read size with ⟨rb', r⟩
    obtain ⟨hiff, hnone, hsome⟩ := read_spec s.1 size hwf
    rw [hread] at hiff hnone hsome
    dsimp only at hiff hnone hsome
    cases r with
    | none =>
      have heq : rb' = s.1 := hnone rfl
      subst heq
      simp only [stepOp, hread]
      exact ⟨hwf, hcap, hbal, hle⟩
    | some out =>
      have hsz : size ≤ s.1.available := by
        rcases Nat.lt_or_ge s.1.available size with hlt | hge
        · exact absurd (hiff.mpr hlt) (by simp)
        · exact hge
      obtain ⟨hwf', hcap', hav', out', hout', hlen'⟩ := hsome hsz
      injection hout' with hout'
      subst hout'
      simp only [stepOp, hread]
      refine ⟨hwf', hcap'.trans hcap, ?_, ?_⟩
      · show rb'.available + (s.2.2 + out.length) = s.2.1
        omega
      · show s.2.2 + out.length ≤ s.2.1
        omega

lemma foldl_inv (C : Nat) (ops : List RingOp) :
    ∀ s, RunInv C s → RunInv C (ops.foldl stepOp s) := by
  induction ops with
  | nil => intro s h; exact h
  | cons op ops ih =>
    intro s h
    rw [List.foldl_cons]
    exact ih _ (stepOp_inv C s op h)

lemma runOps_inv (C : Nat) (hC : 0 < C) (ops : List RingOp) :
    RunInv C (runOps C ops) := by
  apply foldl_inv
  refine ⟨⟨?_, ?_, ?_, ?_⟩, rfl, rfl, le_rfl⟩ <;>
    simp [RingBuffer.new, hC]

/-! ## Claim C5 -/

/-- C5: over any sequence of write/read operations on a fresh ring of
capacity C, available equals the total bytes accepted by writes minus the
total bytes returned by satisfied reads, available never exceeds the
capacity, and a further write from the reached state accepts and returns
exactly min(len, C - available). -/
theorem c5_ring_accounting (C : Nat) (hC : 0 < C) (ops : List RingOp) :
    (runOps C ops).1.available = (runOps C ops).2.1 - (runOps C ops).2.2 ∧
    (runOps C ops).2.2 ≤ (runOps C ops).2.1 ∧
    (runOps C ops).1.available ≤ C ∧
    ∀ data, ((runOps C ops).1.write data).2 =
      min data.length (C - (runOps C ops).1.available) := by
  obtain ⟨hwf, hcap, hbal, hle⟩ := runOps_inv C hC ops
  refine ⟨by omega, hle, by have := hwf.2.1; omega, fun data => ?_⟩
  have := (write_spec (runOps C ops).1 data hwf).2.1
  rw [this, hcap]

/-- C5 witness at a concrete run: capacity 8, write 3 bytes then read 2. -/
theorem c5_ring_accounting_witness :
    (runOps 8 [.wr [1, 2, 3], .rd 2]).1.available =
      (runOps 8 [.wr [1, 2, 3], .rd 2]).2.1 - (runOps 8 [.wr [1, 2, 3], .rd 2]).2.2 ∧
    (runOps 8 [.wr [1, 2, 3], .rd 2]).2.2 ≤ (runOps 8 [.wr [1, 2, 3], .rd 2]).2.1 ∧
    (runOps 8 [.wr [1, 2, 3], .rd 2]).1.available ≤ 8 ∧
    ((runOps 8 [.wr [1, 2, 3], .rd 2]).1.write [7, 7, 7, 7]).2 =
      min ([7, 7, 7, 7] : List Nat).length
        (8 - (runOps 8 [.wr [1, 2, 3], .rd 2]).1.available) := by
  obtain ⟨h1, h2, h3, h4⟩ := c5_ring_accounting 8 (by norm_num) [.wr [1, 2, 3], .rd 2]
  exact ⟨h1, h2, h3, h4 [7, 7, 7, 7]⟩

/-! ## Claim C6 -/

/-- C6: on any well-formed ring state, read(size) returns unavailable exactly
when available < size, in which case the whole state is unchanged; and
read(0) always succeeds with empty bytes. -/
theorem c6_read_underflow (rb : RingBuffer) (size : Nat) (hwf : rb.WF) :
    ((rb.read size).2 = none ↔ rb.available < size) ∧
    ((rb.read size).2 = none → (rb.read size).1 = rb) ∧
    (rb.read 0).2 = some [] := by
  obtain ⟨hiff, hnone, _⟩ := read_spec rb size hwf
  refine ⟨hiff, hnone, ?_⟩
  obtain ⟨hiff0, _, hsome0⟩ := read_spec rb 0 hwf
  obtain ⟨_, _, _, out, hout, hlen⟩ := hsome0 (Nat.zero_le _)
  rw [hout, List.length_eq_zero.mp hlen]

/-- C6 witness: a fresh ring of capacity 4; read(2) is unavailable and leaves
the state unchanged, read(0) succeeds with empty bytes. -/
theorem c6_read_underflow_witness :
    (((RingBuffer.new 4).read 2).2 = none ↔ (RingBuffer.new 4).available < 2) ∧
    (((RingBuffer.new 4).read 2).2 = none →
      ((RingBuffer.new 4).read 2).1 = RingBuffer.new 4) ∧
    ((RingBuffer.new 4).read 0).2 = some [] :=
  c6_read_underflow (RingBuffer.new 4) 2 (by constructor <;> simp [RingBuffer.new])

/-! ## Claim C8 -/

/-- C8: byte-exact wrap-around on a ring of capacity 8: write [1..6], read 4
gives [1,2,3,4], write [7..11], then available = 7 and read 7 gives
[5,6,7,8,9,10,11]. -/
theorem c8_wrap_exact :
    (((RingBuffer.new 8).write [1, 2, 3, 4, 5, 6]).1.read 4).2 = some [1, 2, 3, 4] ∧
    (((((RingBuffer.new 8).write [1, 2, 3, 4, 5, 6]).1.read 4).1.write
      [7, 8, 9, 10, 11]).1.available = 7) ∧
    ((((((RingBuffer.new 8).write [1, 2, 3, 4, 5, 6]).1.read 4).1.write
      [7, 8, 9, 10, 11]).1.read 7).2 = some [5, 6, 7, 8, 9, 10, 11]) := by
  decide

/-! ## Helper lemmas: uniform integers -/

instance {ε α : Type} [DecidableEq ε] [DecidableEq α] : DecidableEq (Except ε α) :=
  fun a b =>
    match a, b with
    | .ok x, .ok y => if h : x = y then isTrue (by rw [h]) else isFalse (by simp [h])
    | .error x, .error y =>
      if h : x = y then isTrue (by rw [h]) else isFalse (by simp [h])
    | .ok _, .error _ => isFalse (by simp)
    | .error _, .ok _ => isFalse (by simp)

lemma wrap64_eq (x : Int) (h1 : -(2 ^ 63) ≤ x) (h2 : x < 2 ^ 63) : wrap64 x = x := by
  unfold wrap64
  rw [Int.emod_eq_of_lt (by omega) (by omega)]
  omega

lemma computedRange_eq (mn mx : Int) (hlt : mn < mx) (hfull : mx - mn + 1 < 2 ^ 64) :
    (computedRange mn mx : Int) = mx - mn + 1 := by
  unfold computedRange
  rw [Int.emod_eq_of_lt (by omega) hfull]
  omega

lemma computedRange_full (mn mx : Int) (hmn : -(2 ^ 63) ≤ mn) (hmx : mx < 2 ^ 63)
    (hne : computedRange mn mx ≠ 0) : mx - mn + 1 < 2 ^ 64 := by
  by_contra hge
  have heq : mx - mn + 1 = 2 ^ 64 := by omega
  apply hne
  unfold computedRange
  rw [heq]
  simp

lemma sampleStep_some_bounds (mn mx : Int) (v : Nat) (y : Int)
    (hmn : -(2 ^ 63) ≤ mn) (hmx : mx < 2 ^ 63) (hlt : mn < mx)
    (hne : computedRange mn mx ≠ 0)
    (h : sampleStep mn (computedRange mn mx) v = some y) : mn ≤ y ∧ y ≤ mx := by
  have hfull := computedRange_full mn mx hmn hmx hne
  have hr := computedRange_eq mn mx hlt hfull
  unfold sampleStep at h
  split_ifs at h with hv
  · injection h with h
    have hmod : v % computedRange mn mx < computedRange mn mx :=
      Nat.mod_lt v (Nat.pos_of_ne_zero hne)
    have hmodI : ((v % computedRange mn mx : Nat) : Int) < mx - mn + 1 := by
      rw [← hr]; exact_mod_cast hmod
    have hmod0 : (0 : Int) ≤ ((v % computedRange mn mx : Nat) : Int) := Int.ofNat_nonneg _
    rw [← h, wrap64_eq _ (by omega) (by omega)]
    omega

lemma sampleChunks_mem (mn : Int) (range count : Nat) :
    ∀ (chunks : List (List Nat)) (acc : List Int) (y : Int),
    y ∈ sampleChunks mn range count chunks acc →
    y ∈ acc ∨ ∃ v, sampleStep mn range v = some y := by
  intro chunks
  induction chunks with
  | nil =>
    intro acc y hy
    exact Or.inl hy
  | cons c cs ih =>
    intro acc y hy
    unfold sampleChunks at hy
    split_ifs at hy with hcnt
    · rcases hstep : sampleStep mn range (chunkValue c) with _ | x
      · rw [hstep] at hy
        exact ih acc y hy
      · rw [hstep] at hy
        rcases ih _ y hy with hacc | hex
        · rcases List.mem_append.mp hacc with h | h
          · exact Or.inl h
          · simp at h
            exact Or.inr ⟨chunkValue c, by rw [hstep, h]⟩
        · exact Or.inr hex
    · exact Or.inl hy

/-! ## Claim C3 -/

/-- C3: whenever the integers endpoint succeeds, every returned integer lies
in [min, max], for any byte width and any raw bytes whatsoever. -/
theorem c3_integers_in_range (mn mx : Int) (count w : Nat) (bytes : List Nat)
    (l : List Int) (hmn : -(2 ^ 63) ≤ mn) (hmx : mx < 2 ^ 63)
    (hok : random_integers mn mx count w bytes = .ok l) :
    ∀ y ∈ l, mn ≤ y ∧ y ≤ mx := by
  intro y hy
  simp only [random_integers] at hok
  split_ifs at hok with hv1 hv2 hr0 hins
  have hlt : mn < mx := by omega
  injection hok with hok
  subst hok
  have hy' : y ∈ sampleChunks mn (computedRange mn mx) count
      (chunksOf w bytes) [] := List.take_subset _ _ hy
  rcases sampleChunks_mem mn (computedRange mn mx) count (chunksOf w bytes) [] y hy' with
    h | ⟨v, hstep⟩
  · simp at h
  · exact sampleStep_some_bounds mn mx v y hmn hmx hlt hr0 hstep

/-- C3 witness: min 0, max 2, count 1, width 1, raw byte 5 — the request
succeeds with [2] and the bound holds there. -/
theorem c3_integers_in_range_witness : (0 : Int) ≤ 2 ∧ (2 : Int) ≤ 2 :=
  c3_integers_in_range 0 2 1 1 [5] [2] (by norm_num) (by norm_num)
    (by decide) 2 (by norm_num [List.mem_singleton])

/-! ## Claim C4 -/

/-- C4 is a bug in the code: for min = i64::MIN and max = i64::MAX the
mathematical range max - min + 1 = 2^64, but the source computes it with
wrapping i64 arithmetic, yielding 0 (in debug builds the subtraction already
panics with overflow), after which the sampling loop's u64::MAX % range is a
remainder by zero and panics.  This theorem evaluates the embedded code at
that failing input: the computed range is 0, not the mathematical 2^64, and
the handler panics instead of returning integers. -/
theorem c4_range_overflow :
    computedRange (-(2 ^ 63)) (2 ^ 63 - 1) = 0 ∧
    ((2 ^ 63 - 1 : Int) - (-(2 ^ 63)) + 1 = 2 ^ 64) ∧
    random_integers (-(2 ^ 63)) (2 ^ 63 - 1) 1 0 [] =
      .error "panic: remainder by zero" := by
  refine ⟨?_, by norm_num, ?_⟩ <;> decide

/-! ## Helper lemmas: rejection-sampling distribution -/

lemma maxValid_mul (range : Nat) : maxValid range = range * (u64Max / range) := by
  have h := Nat.div_add_mod u64Max range
  unfold maxValid
  omega

lemma range_dvd_maxValid (range : Nat) : range ∣ maxValid range :=
  ⟨u64Max / range, maxValid_mul range⟩

lemma maxValid_ge (range : Nat) (h0 : 0 < range) (hlt : range < 2 ^ 64) :
    2 ^ 63 ≤ maxValid range := by
  have h1 : range ≤ u64Max := by unfold u64Max; omega
  have hq : 1 ≤ u64Max / range := (Nat.one_le_div_iff h0).mpr h1
  have h2 : range * 1 ≤ range * (u64Max / range) := Nat.mul_le_mul_left range hq
  rw [maxValid_mul range] at *
  have h3 : u64Max % range < range := Nat.mod_lt _ h0
  have h4 := Nat.div_add_mod u64Max range
  unfold u64Max at *
  omega

lemma maxValid_le (range : Nat) : maxValid range ≤ u64Max := by
  unfold maxValid
  omega

lemma filter_range_lt_card (N m : Nat) :
    ((Finset.range N).filter (fun v => v < m)).card = min m N := by
  have hset : (Finset.range N).filter (fun v => v < m) = Finset.range (min m N) := by
    ext v
    simp only [Finset.mem_filter, Finset.mem_range, Nat.lt_min]
    omega
  rw [hset, Finset.card_range]

lemma card_mod_filter (n r : Nat) (hn : 0 < n) (hr : r < n) :
    ∀ q, ((Finset.range (n * q)).filter (fun v => v % n = r)).card = q := by
  intro q
  induction q with
  | zero => simp
  | succ q ih =>
    have hsplit : Finset.range (n * (q + 1)) =
        Finset.range (n * q) ∪ Finset.Ico (n * q) (n * q + n) := by
      have hm : n * (q + 1) = n * q + n := by ring
      rw [hm]
      ext v
      simp only [Finset.mem_union, Finset.mem_range, Finset.mem_Ico]
      omega
    have hone : (Finset.Ico (n * q) (n * q + n)).filter (fun v => v % n = r) =
        {n * q + r} := by
      ext v
      simp only [Finset.mem_filter, Finset.mem_Ico, Finset.mem_singleton]
      constructor
      · rintro ⟨⟨h1, h2⟩, h3⟩
        have hv : v = (v - n * q) + n * q := by omega
        rw [hv, Nat.add_mul_mod_self_left] at h3
        have hlt2 : v - n * q < n := by omega
        rw [Nat.mod_eq_of_lt hlt2] at h3
        omega
      · rintro rfl
        refine ⟨⟨by omega, by omega⟩, ?_⟩
        have hc : n * q + r = r + n * q := by ring
        rw [hc, Nat.add_mul_mod_self_left, Nat.mod_eq_of_lt hr]
    have hdisj : Disjoint ((Finset.range (n * q)).filter (fun v => v % n = r))
        ((Finset.Ico (n * q) (n * q + n)).filter (fun v => v % n = r)) := by
      rw [Finset.disjoint_left]
      intro a ha hb
      simp only [Finset.mem_filter, Finset.mem_range] at ha
      simp only [Finset.mem_filter, Finset.mem_Ico] at hb
      omega
    rw [hsplit, Finset.filter_union, Finset.card_union_of_disjoint hdisj, ih, hone]
    simp

/-! ## Claim C2 -/

/-- C2, counterexample: the claim as stated is false on the code.  At
min = 0, max = 2 (range 3, width w = 1) the rejection threshold
u64::MAX - (u64::MAX mod 3) exceeds every 1-byte chunk value, so no chunk is
rejected and value 0 is emitted by 86 of the 256 chunks while value 1 is
emitted by only 85 — not perfectly uniform.  Moreover for range = 2^57
(which divides 2^64, w = 8) the chunk 2^64 - 1 is rejected, so the
no-rejection part also fails. -/
theorem c2_counterexample :
    ((Finset.range 256).filter (fun v => sampleStep 0 3 v = some 0)).card = 86 ∧
    ((Finset.range 256).filter (fun v => sampleStep 0 3 v = some 1)).card = 85 ∧
    (2 ^ 57 : Nat) ∣ 2 ^ 64 ∧ (2 ^ 64 - 1 : Nat) < 256 ^ 8 ∧
    sampleStep 0 (2 ^ 57) (2 ^ 64 - 1) = none := by
  refine ⟨by decide, by decide, ⟨2 ^ 7, by norm_num⟩, by norm_num, by decide⟩

/-- C2, amended: with range = max - min + 1 (< 2^64; at full i64 range the
code panics, see C4) and any byte width w ≤ 8 covering the range, a w-byte
chunk of value v is accepted iff v < u64::MAX - (u64::MAX mod range), emitting
min + (v mod range); the output is perfectly uniform — every value of
[min, max] emitted by an equal number of the 256^w chunks — when range
divides 256^w or w = 8 (not in general, see the counterexample); when range
divides 2^64 and w ≤ 7 no chunk is rejected; and at least half of all 256^w
chunks are accepted. -/
theorem c2_rejection_sampling (mn mx : Int) (w : Nat)
    (hmn : -(2 ^ 63) ≤ mn) (hmx : mx < 2 ^ 63) (hlt : mn < mx)
    (hfull : mx - mn + 1 < 2 ^ 64) (hw8 : w ≤ 8)
    (hcov : computedRange mn mx ≤ 256 ^ w) :
    (∀ v : Nat, sampleStep mn (computedRange mn mx) v =
      if v < maxValid (computedRange mn mx)
      then some (mn + ((v % computedRange mn mx : Nat) : Int)) else none) ∧
    (computedRange mn mx ∣ 256 ^ w ∨ w = 8 →
      ∀ x : Int, mn ≤ x → x ≤ mx →
        ((Finset.range (256 ^ w)).filter
          (fun v => sampleStep mn (computedRange mn mx) v = some x)).card =
        min (maxValid (computedRange mn mx)) (256 ^ w) / computedRange mn mx) ∧
    (computedRange mn mx ∣ 2 ^ 64 ∧ w ≤ 7 →
      ∀ v < 256 ^ w, sampleStep mn (computedRange mn mx) v ≠ none) ∧
    2 * ((Finset.range (256 ^ w)).filter
      (fun v => sampleStep mn (computedRange mn mx) v ≠ none)).card ≥ 256 ^ w := by
  have hrI := computedRange_eq mn mx hlt hfull
  set n := computedRange mn mx with hn
  have hpos : 0 < n := by omega
  have hlt64 : n < 2 ^ 64 := by omega
  have hmono : (256 : Nat) ^ w ≤ 256 ^ 8 :=
    Nat.pow_le_pow_right (by norm_num) hw8
  have h2564 : (256 : Nat) ^ 8 = 2 ^ 64 := by norm_num
  have hacc : ∀ v : Nat, sampleStep mn n v =
      if v < maxValid n then some (mn + ((v % n : Nat) : Int)) else none := by
    intro v
    unfold sampleStep
    split_ifs with hv
    · congr 1
      have hmod : v % n < n := Nat.mod_lt v hpos
      have hmodI : ((v % n : Nat) : Int) < mx - mn + 1 := by
        rw [← hrI]; exact_mod_cast hmod
      have hmod0 : (0 : Int) ≤ ((v % n : Nat) : Int) := Int.ofNat_nonneg _
      exact wrap64_eq _ (by omega) (by omega)
    · rfl
  refine ⟨hacc, ?_, ?_, ?_⟩
  · -- uniformity when n divides 256^w or w = 8
    intro hdvd x hx1 hx2
    set r : Nat := (x - mn).toNat with hrdef
    have hxr : (r : Int) = x - mn := by
      rw [hrdef]; omega
    have hr : r < n := by omega
    have hset : (Finset.range (256 ^ w)).filter (fun v => sampleStep mn n v = some x)
        = (Finset.range (min (maxValid n) (256 ^ w))).filter (fun v => v % n = r) := by
      ext v
      simp only [Finset.mem_filter, Finset.mem_range, Nat.lt_min, hacc v]
      constructor
      · rintro ⟨hvw, hsome⟩
        split_ifs at hsome with hvm
        · injection hsome with hsome
          have : ((v % n : Nat) : Int) = x - mn := by omega
          refine ⟨⟨hvm, hvw⟩, ?_⟩
          omega
      · rintro ⟨⟨hvm, hvw⟩, hmod⟩
        rw [if_pos hvm]
        refine ⟨hvw, ?_⟩
        congr 1
        have : ((v % n : Nat) : Int) = (r : Int) := by exact_mod_cast hmod
        omega
    have hdvdmin : n ∣ min (maxValid n) (256 ^ w) := by
      rcases hdvd with hdvd | rfl
      · rcases Nat.le_total (maxValid n) (256 ^ w) with hle | hle
        · rw [Nat.min_eq_left hle]; exact range_dvd_maxValid n
        · rw [Nat.min_eq_right hle]; exact hdvd
      · have : maxValid n ≤ 256 ^ 8 := by
          have := maxValid_le n
          unfold u64Max at this
          omega
        rw [Nat.min_eq_left this]
        exact range_dvd_maxValid n
    obtain ⟨q, hq⟩ := hdvdmin
    rw [hset, hq, card_mod_filter n r hpos hr q, Nat.mul_div_cancel_left q hpos]
  · -- no rejection when n divides 2^64 and w ≤ 7
    rintro ⟨hdvd, hw7⟩ v hv
    obtain ⟨s, hs⟩ := hdvd
    have hs1 : 1 ≤ s := by
      rcases Nat.eq_zero_or_pos s with rfl | h
      · omega
      · omega
    have hns : n * s = n * (s - 1) + n := by
      have hs2 : s = (s - 1) + 1 := by omega
      calc n * s = n * ((s - 1) + 1) := by rw [← hs2]
        _ = n * (s - 1) + n := by ring
    have hmod : u64Max % n = n - 1 := by
      have hrw : u64Max = (n - 1) + n * (s - 1) := by
        unfold u64Max
        omega
      rw [hrw, Nat.add_mul_mod_self_left, Nat.mod_eq_of_lt (by omega)]
    have hmv : maxValid n = 2 ^ 64 - n := by
      unfold maxValid
      rw [hmod]
      unfold u64Max
      omega
    have hsmall : (256 : Nat) ^ w ≤ 2 ^ 56 := by
      calc (256 : Nat) ^ w ≤ 256 ^ 7 := Nat.pow_le_pow_right (by norm_num) hw7
        _ = 2 ^ 56 := by norm_num
    rw [hacc v, if_pos (by omega)]
    simp
  · -- acceptance rate at least one half
    have hset : (Finset.range (256 ^ w)).filter (fun v => sampleStep mn n v ≠ none)
        = (Finset.range (256 ^ w)).filter (fun v => v < maxValid n) := by
      ext v
      simp only [Finset.mem_filter, Finset.mem_range, hacc v]
      split_ifs with hvm <;> simp [hvm]
    rw [hset, filter_range_lt_card]
    have hge := maxValid_ge n hpos hlt64
    omega

/-- C2 witness: min 0, max 255 (range 256, w = 1, 256 divides 256^1): each of
the 256 chunk values is accepted and value 7 is emitted by exactly
min(maxValid, 256)/256 chunks. -/
theorem c2_rejection_sampling_witness :
    ((Finset.range (256 ^ 1)).filter
      (fun v => sampleStep 0 (computedRange 0 255) v = some 7)).card =
    min (maxValid (computedRange 0 255)) (256 ^ 1) / computedRange 0 255 :=
  (c2_rejection_sampling 0 255 1 (by norm_num) (by norm_num) (by norm_num)
    (by norm_num) (by norm_num) (by decide)).2.1 (Or.inl (by decide)) 7
    (by norm_num) (by norm_num)

/-! ## Claim C9 -/

lemma all_eq_first_iff (first : Nat) (rest : List Nat) :
    (first :: rest).all (fun b => b == first) = true ↔
      ∀ b ∈ first :: rest, b = first := by
  rw [List.all_eq_true]
  constructor
  · intro h b hb
    exact beq_iff_eq.mp (h b hb)
  · intro h b hb
    exact beq_iff_eq.mpr (h b hb)

/-- C9: health_check reads 16 bytes and returns Ok(true) exactly when the
read succeeds and not every byte equals the first byte; every read error
yields Ok(false); it never panics or propagates an error. -/
theorem c9_health_check (r : Except QuantisError (List Nat))
    (hlen : ∀ d, r = .ok d → d.length = 16) :
    (∃ b, health_check r = some (.ok b)) ∧
    (health_check r = some (.ok true) ↔
      ∃ first rest, r = .ok (first :: rest) ∧ ¬ ∀ b ∈ first :: rest, b = first) ∧
    (∀ e, r = .error e → health_check r = some (.ok false)) := by
  cases r with
  | error e =>
    refine ⟨⟨false, rfl⟩, ?_, fun _ _ => rfl⟩
    constructor
    · intro h
      simp [health_check] at h
    · rintro ⟨first, rest, heq, -⟩
      exact Except.noConfusion heq
  | ok d =>
    have h16 : d.length = 16 := hlen d rfl
    cases d with
    | nil => simp at h16
    | cons first rest =>
      refine ⟨⟨_, rfl⟩, ?_, fun e he => Except.noConfusion he⟩
      constructor
      · intro htrue
        refine ⟨first, rest, rfl, ?_⟩
        intro hall
        have hab : (first :: rest).all (fun b => b == first) = true :=
          (all_eq_first_iff first rest).mpr hall
        simp only [health_check, hab] at htrue
        simp at htrue
      · rintro ⟨f', r', heq, hne⟩
        injection heq with heq
        injection heq with h1 h2
        subst h1
        subst h2
        rcases hab : (first :: rest).all (fun b => b == first) with _ | _
        · simp only [health_check, hab]
          rfl
        · exact absurd ((all_eq_first_iff first rest).mp hab) hne

/-- C9 witness: a successful 16-byte read with a differing second byte gives
Ok(true); the characterization is instantiated at that read result. -/
theorem c9_health_check_witness :
    (∃ b, health_check (.ok [0, 1, 0, 0, 0, 0, 0, 0, 0, 0, 0, 0, 0, 0, 0, 0])
      = some (.ok b)) ∧
    (health_check (.ok [0, 1, 0, 0, 0, 0, 0, 0, 0, 0, 0, 0, 0, 0, 0, 0])
        = some (.ok true) ↔
      ∃ first rest,
        (.ok [0, 1, 0, 0, 0, 0, 0, 0, 0, 0, 0, 0, 0, 0, 0, 0] :
          Except QuantisError (List Nat)) = .ok (first :: rest) ∧
        ¬ ∀ b ∈ first :: rest, b = first) ∧
    (∀ e, (.ok [0, 1, 0, 0, 0, 0, 0, 0, 0, 0, 0, 0, 0, 0, 0, 0] :
        Except QuantisError (List Nat)) = .error e →
      health_check (.ok [0, 1, 0, 0, 0, 0, 0, 0, 0, 0, 0, 0, 0, 0, 0, 0])
        = some (.ok false)) := by
  apply c9_health_check
  intro d hd
  injection hd with hd
  rw [← hd]
  rfl

end QuantisSpec
